import Mathlib

/-!
Verification development for the Fraction library (`src/Fraction.h`).

Modelling conventions for the shallow embedding:
* the C++ integral template parameter `Type` is modelled as the unbounded
  `Int` (overflow is explicitly out of scope for the library contract);
* C++ truncated integer division `/` and remainder `%` are `Int.tdiv` and
  `Int.tmod`;
* integer division by zero is undefined behaviour in C++, so operations
  that can perform it return `Option` and map that case to `none`;
* C++ exceptions (`std::invalid_argument`) are modelled with `Except`;
* the floating-point scalar type of the converter (`Arg_t`) and of the
  three-way comparison (`long double`) is modelled as `ℚ` with exact
  arithmetic, and `std::floor` as `Int.floor`;
* the unbounded `while (true)` loop of `to_Fraction` is given an explicit
  fuel parameter; exhausting the fuel (`LibError.outOfFuel`) corresponds to
  the source looping further (possibly forever), never to a thrown error.
-/

/-- Errors of the library: the two `std::invalid_argument` exceptions thrown
by the constructor and the converter, and a marker for fuel exhaustion of the
converter loop (which the source does not bound). -/
inductive LibError where
  | invalidDenominator
  | invalidTolerance
  | outOfFuel
deriving DecidableEq, Repr

/-- The `Fraction` value type: numerator and denominator of the integral
storage type (modelled as `Int`). -/
structure Fraction where
  mNumerator : Int
  mDenominator : Int
deriving DecidableEq, Repr

namespace Fraction

/-- Countdown loop of the private member `Fraction::GDC`:
`tResult = min(a,b); while (tResult > 0) { if (a % tResult == 0 && b % tResult == 0) break; --tResult; } return tResult;`.
`GDCloop a b t` is the value returned when the countdown starts at `t > 0`. -/
def GDCloop (a b : Int) : Nat → Int
  | 0 => 0
  | t + 1 =>
    if Int.tmod a ((t + 1 : Nat) : Int) = 0 ∧ Int.tmod b ((t + 1 : Nat) : Int) = 0 then
      ((t + 1 : Nat) : Int)
    else
      GDCloop a b t

/-- The private member `Fraction::GDC` (sic): starts at `min a b` and counts
down while positive; if `min a b ≤ 0` the loop body never runs and `min a b`
itself is returned. -/
def GDC (a b : Int) : Int :=
  if 0 < min a b then GDCloop a b (min a b).toNat else min a b

/-- The private member `Fraction::LCM`: `0` if either argument is `0`,
otherwise `std::abs(a * b) / GDC(a, b)` with C++ truncated division. -/
def LCM (a b : Int) : Int :=
  if a = 0 ∨ b = 0 then 0 else Int.tdiv |a * b| (GDC a b)

/-- The two-argument constructor `Fraction(xNumerator, mDenominator)`:
stores both fields and throws `std::invalid_argument` when the denominator
is zero. -/
def mk? (xNumerator mDenominator : Int) : Except LibError Fraction :=
  if mDenominator = 0 then .error .invalidDenominator
  else .ok ⟨xNumerator, mDenominator⟩

/-- Accessor `getNumerator`. -/
def getNumerator (f : Fraction) : Int := f.mNumerator

/-- Accessor `getDenominator`. -/
def getDenominator (f : Fraction) : Int := f.mDenominator

/-- The equality operator `operator==`: structural comparison of both
fields. -/
def eqOp (f xIn : Fraction) : Bool :=
  f.mDenominator == xIn.mDenominator && f.mNumerator == xIn.mNumerator

/-- The three-way comparison `operator<=>`: equal when either denominator is
zero, otherwise comparison of the two ratios (the `long double` quotients are
modelled as exact rational values). -/
def compareOp (f xIn : Fraction) : Ordering :=
  if f.mDenominator = 0 ∨ xIn.mDenominator = 0 then .eq
  else
    let lhsRatio : ℚ := (f.mNumerator : ℚ) / (f.mDenominator : ℚ)
    let rhsRatio : ℚ := (xIn.mNumerator : ℚ) / (xIn.mDenominator : ℚ)
    if lhsRatio < rhsRatio then .lt
    else if rhsRatio < lhsRatio then .gt
    else .eq

/-- The public member `Fraction::GCD`: exposes `GDC(mNumerator, mDenominator)`. -/
def GCD (f : Fraction) : Int := GDC f.mNumerator f.mDenominator

/-- The member `simplify()`: divides both fields by `GDC(mNumerator,
mDenominator)` in place. When that value is `0` the source performs an
integer division by zero (undefined behaviour), modelled as `none`. -/
def simplify (f : Fraction) : Option Fraction :=
  let tGDC := GDC f.mNumerator f.mDenominator
  if tGDC = 0 then none
  else some ⟨Int.tdiv f.mNumerator tGDC, Int.tdiv f.mDenominator tGDC⟩

/-- Compound `operator+=(const Fraction&)`: equal denominators add the
numerators; otherwise rescale both numerators to the `LCM` of the
denominators. -/
def addAssign (f xOther : Fraction) : Fraction :=
  if f.mDenominator ≠ xOther.mDenominator then
    let tLCM := LCM f.mDenominator xOther.mDenominator
    ⟨f.mNumerator * Int.tdiv tLCM f.mDenominator +
        xOther.mNumerator * Int.tdiv tLCM xOther.mDenominator,
      tLCM⟩
  else
    ⟨f.mNumerator + xOther.mNumerator, f.mDenominator⟩

/-- Compound `operator-=(const Fraction&)`. -/
def subAssign (f xOther : Fraction) : Fraction :=
  if f.mDenominator ≠ xOther.mDenominator then
    let tLCM := LCM f.mDenominator xOther.mDenominator
    ⟨f.mNumerator * Int.tdiv tLCM f.mDenominator -
        xOther.mNumerator * Int.tdiv tLCM xOther.mDenominator,
      tLCM⟩
  else
    ⟨f.mNumerator - xOther.mNumerator, f.mDenominator⟩

/-- Compound `operator*=(const Fraction&)`: numerator times numerator,
denominator times denominator. -/
def mulAssign (f xOther : Fraction) : Fraction :=
  ⟨f.mNumerator * xOther.mNumerator, f.mDenominator * xOther.mDenominator⟩

/-- Compound `operator/=(const Fraction&)`: multiply by the reciprocal, with
no check on the divisor's numerator. -/
def divAssign (f xOther : Fraction) : Fraction :=
  ⟨f.mNumerator * xOther.mDenominator, f.mDenominator * xOther.mNumerator⟩

/-- Compound `operator+=(const Type&)`: delegates to `+=` with `xOther/1`. -/
def addAssignScalar (f : Fraction) (xOther : Int) : Fraction :=
  addAssign f ⟨xOther, 1⟩

/-- Compound `operator-=(const Type&)`: delegates to `-=` with `xOther/1`. -/
def subAssignScalar (f : Fraction) (xOther : Int) : Fraction :=
  subAssign f ⟨xOther, 1⟩

/-- Compound `operator*=(const Type&)`: multiplies only the numerator. -/
def mulAssignScalar (f : Fraction) (xOther : Int) : Fraction :=
  ⟨f.mNumerator * xOther, f.mDenominator⟩

/-- Compound `operator/=(const Type&)`: multiplies only the denominator. -/
def divAssignScalar (f : Fraction) (xOther : Int) : Fraction :=
  ⟨f.mNumerator, f.mDenominator * xOther⟩

end Fraction

/-- The `while (true)` loop of `to_Fraction`, with fuel. Each iteration
advances the continued-fraction convergent recurrence `h1, h2 ← a·h1 + h2, h1`
and `k1, k2 ← a·k1 + k2, k1` with `a = floor x`, updates `x ← 1/(x − a)`, and
returns `(h1, k1)` as soon as `|h1/k1 − xValue| < xValue · epsilon`. -/
def cfLoop (xValue epsilon : ℚ) (h1 h2 k1 k2 : Int) (x : ℚ) : Nat → Option (Int × Int)
  | 0 => none
  | fuel + 1 =>
    let a : Int := ⌊x⌋
    let h1' : Int := a * h1 + h2
    let k1' : Int := a * k1 + k2
    if |(h1' : ℚ) / (k1' : ℚ) - xValue| < xValue * epsilon then some (h1', k1')
    else cfLoop xValue epsilon h1' h1 k1' k1 (1 / (x - (a : ℚ))) fuel

/-- The free function `to_Fraction`: throws on non-positive tolerance,
short-circuits to `0/1` when `|xValue| < xTolerance`, and otherwise runs the
continued-fraction loop on `|xValue|`, restoring the recorded sign on return.
The result is the returned (numerator, denominator) pair; the unreachable
`return Fraction{0, 0}` after `while (true)` is dead code in the source. -/
def to_Fraction (xValue xTolerance : ℚ) (fuel : Nat) : Except LibError (Int × Int) :=
  if xTolerance ≤ 0 then .error .invalidTolerance
  else if xValue < xTolerance ∧ -xTolerance < xValue then .ok (0, 1)
  else
    let sign : Int := if xValue < 0 then -1 else 1
    match cfLoop |xValue| xTolerance 1 0 0 1 |xValue| fuel with
    | some (h1, k1) => .ok (sign * h1, k1)
    | none => .error .outOfFuel

namespace Fraction

/-- Compound `operator+=(const Arg_t&)` for floating operands: converts the
operand with `to_Fraction` (propagating its exception as `none`) and
delegates to the Fraction overload. -/
def addAssignFloat (f : Fraction) (xOther xTolerance : ℚ) (fuel : Nat) : Option Fraction :=
  match to_Fraction xOther xTolerance fuel with
  | .ok (n, d) => some (addAssign f ⟨n, d⟩)
  | .error _ => none

/-- Compound `operator-=(const Arg_t&)` for floating operands. -/
def subAssignFloat (f : Fraction) (xOther xTolerance : ℚ) (fuel : Nat) : Option Fraction :=
  match to_Fraction xOther xTolerance fuel with
  | .ok (n, d) => some (subAssign f ⟨n, d⟩)
  | .error _ => none

/-- Compound `operator*=(const Arg_t&)` for floating operands. -/
def mulAssignFloat (f : Fraction) (xOther xTolerance : ℚ) (fuel : Nat) : Option Fraction :=
  match to_Fraction xOther xTolerance fuel with
  | .ok (n, d) => some (mulAssign f ⟨n, d⟩)
  | .error _ => none

/-- Compound `operator/=(const Arg_t&)` for floating operands. -/
def divAssignFloat (f : Fraction) (xOther xTolerance : ℚ) (fuel : Nat) : Option Fraction :=
  match to_Fraction xOther xTolerance fuel with
  | .ok (n, d) => some (divAssign f ⟨n, d⟩)
  | .error _ => none

end Fraction

/-- State of the converter loop between two iterations: the convergent
accumulators `h1 h2 k1 k2` and the current complete quotient `x`. Used to
speak about the sequence of convergents the loop generates. -/
structure CFState where
  h1 : Int
  h2 : Int
  k1 : Int
  k2 : Int
  x : ℚ

/-- One iteration of the converter loop acting on a `CFState` (the same
update `cfLoop` performs before testing its guard). -/
def cfStep (s : CFState) : CFState :=
  ⟨⌊s.x⌋ * s.h1 + s.h2, s.h1, ⌊s.x⌋ * s.k1 + s.k2, s.k1, 1 / (s.x - (⌊s.x⌋ : ℚ))⟩

/-- Initial state of the converter loop: `h1 = 1, h2 = 0, k1 = 0, k2 = 1`
and `x` the absolute value of the input. -/
def cfInit (x0 : ℚ) : CFState := ⟨1, 0, 0, 1, x0⟩

/-- Numerator of the `m`-th continued-fraction convergent generated by the
loop (the value of `h1` after `m + 1` iterations). -/
def cfConvH (x0 : ℚ) (m : Nat) : Int := (cfStep^[m + 1] (cfInit x0)).h1

/-- Denominator of the `m`-th continued-fraction convergent generated by the
loop (the value of `k1` after `m + 1` iterations). -/
def cfConvK (x0 : ℚ) (m : Nat) : Int := (cfStep^[m + 1] (cfInit x0)).k1

/-- The guard of the converter loop holds at the `m`-th convergent: its
value approximates `x0` within the relative tolerance. -/
def cfGood (x0 epsilon : ℚ) (m : Nat) : Prop :=
  |(cfConvH x0 m : ℚ) / (cfConvK x0 m : ℚ) - x0| < x0 * epsilon

/-- The complete quotient before iteration `i + 1` is an integer: the exact
continued-fraction expansion terminates at this iteration, and convergents
produced by `cfStep` beyond it are no longer genuine. -/
def cfExact (x0 : ℚ) (i : Nat) : Prop :=
  (cfStep^[i] (cfInit x0)).x = ((⌊(cfStep^[i] (cfInit x0)).x⌋ : Int) : ℚ)

/-- Loop invariant of the convergent recurrence: the current complete
quotient `x` recombines with the accumulators to the original value, and the
recombination denominator is positive. -/
def cfInv (x0 : ℚ) (s : CFState) : Prop :=
  x0 * (s.x * (s.k1 : ℚ) + (s.k2 : ℚ)) = s.x * (s.h1 : ℚ) + (s.h2 : ℚ) ∧
    0 < s.x * (s.k1 : ℚ) + (s.k2 : ℚ)

/-- Denominator-preservation facts across the public compound-operator
surface, for a receiver `f` and operands `g` (Fraction), `k` (integral
scalar) and `v` with tolerance `ε` (floating, via the converter with the
given fuel). The successful conversion of a floating operand is written
`some f'`. -/
def C1Conclusion (f g : Fraction) (k : Int) (v ε : ℚ) (fuel : Nat) (f' : Fraction) : Prop :=
  (Fraction.addAssign f g).getDenominator ≠ 0 ∧
  (Fraction.subAssign f g).getDenominator ≠ 0 ∧
  (Fraction.mulAssign f g).getDenominator ≠ 0 ∧
  (g.mNumerator ≠ 0 → (Fraction.divAssign f g).getDenominator ≠ 0) ∧
  (Fraction.addAssignScalar f k).getDenominator ≠ 0 ∧
  (Fraction.subAssignScalar f k).getDenominator ≠ 0 ∧
  (Fraction.mulAssignScalar f k).getDenominator ≠ 0 ∧
  (k ≠ 0 → (Fraction.divAssignScalar f k).getDenominator ≠ 0) ∧
  (0 < f.mNumerator → 0 < f.mDenominator →
    ∀ f1, Fraction.simplify f = some f1 → f1.getDenominator ≠ 0) ∧
  (ε ≤ 1 → Fraction.addAssignFloat f v ε fuel = some f' → f'.getDenominator ≠ 0) ∧
  (ε ≤ 1 → Fraction.subAssignFloat f v ε fuel = some f' → f'.getDenominator ≠ 0) ∧
  (ε ≤ 1 → Fraction.mulAssignFloat f v ε fuel = some f' → f'.getDenominator ≠ 0) ∧
  (ε ≤ 1 → ε ≤ |v| → Fraction.divAssignFloat f v ε fuel = some f' → f'.getDenominator ≠ 0)

/-- Correctness facts of the converter for claim C2: the short-circuit
result for small inputs, and, on successful loop termination, the relative
error bound together with minimality of the returned denominator among the
genuine convergents whose guard holds. -/
def C2Conclusion (v ε : ℚ) (fuel : Nat) (n d : Int) : Prop :=
  (|v| < ε → to_Fraction v ε fuel = .ok (0, 1)) ∧
  (ε ≤ |v| → to_Fraction v ε fuel = .ok (n, d) →
    |(n : ℚ) / (d : ℚ) - v| < |v| * ε ∧
    ∀ m : Nat, (∀ i, i < m → ¬ cfExact |v| i) → cfGood |v| ε m → d ≤ cfConvK |v| m)

/-! ### Properties of the private GCD / LCM helpers -/

namespace Fraction

theorem tmod_eq_zero_iff {a t : Int} : Int.tmod a t = 0 ↔ t ∣ a :=
  Int.dvd_iff_tmod_eq_zero.symm

theorem GDCloop_le (a b : Int) : ∀ t : Nat, GDCloop a b t ≤ (t : Int) := by
  intro t
  induction t with
  | zero => simp [GDCloop]
  | succ n ih =>
    rw [GDCloop]
    split
    · exact le_refl _
    · exact le_trans ih (by exact_mod_cast Nat.le_succ n)

theorem GDCloop_one_le (a b : Int) : ∀ t : Nat, 1 ≤ GDCloop a b (t + 1) := by
  intro t
  induction t with
  | zero =>
    rw [GDCloop, if_pos]
    · norm_num
    · constructor <;> simp [Int.tmod_one]
  | succ n ih =>
    rw [GDCloop]
    split
    · push_cast; omega
    · exact ih

theorem GDCloop_dvd (a b : Int) :
    ∀ t : Nat, GDCloop a b (t + 1) ∣ a ∧ GDCloop a b (t + 1) ∣ b := by
  intro t
  induction t with
  | zero =>
    rw [GDCloop, if_pos]
    · constructor <;> · push_cast; exact one_dvd _
    · constructor <;> simp [Int.tmod_one]
  | succ n ih =>
    rw [GDCloop]
    split
    · next hcond =>
      exact ⟨tmod_eq_zero_iff.mp hcond.1, tmod_eq_zero_iff.mp hcond.2⟩
    · exact ih

theorem GDCloop_eq_gcd {a b : Int} (ha : 0 < a) (hb : 0 < b) :
    ∀ t : Nat, Int.gcd a b ≤ t → GDCloop a b t = Int.gcd a b := by
  intro t
  induction t with
  | zero =>
    intro h
    have h0 : Int.gcd a b = 0 := Nat.le_zero.mp h
    rw [Int.gcd_eq_zero_iff] at h0
    exact absurd h0.1 (by omega)
  | succ n ih =>
    intro h
    have hgpos : 0 < Int.gcd a b := Int.gcd_pos_of_ne_zero_left b (by omega)
    rw [GDCloop]
    split
    · next hcond =>
      have hdvd : ((n + 1 : Nat) : Int) ∣ (Int.gcd a b : Int) :=
        Int.dvd_gcd (tmod_eq_zero_iff.mp hcond.1) (tmod_eq_zero_iff.mp hcond.2)
      have hle : ((n + 1 : Nat) : Int) ≤ (Int.gcd a b : Int) :=
        Int.le_of_dvd (by exact_mod_cast hgpos) hdvd
      have : (n + 1 : Nat) = Int.gcd a b := by exact_mod_cast le_antisymm (by exact_mod_cast hle) h
      exact_mod_cast congrArg (Nat.cast : Nat → Int) this
    · next hcond =>
      apply ih
      rcases Nat.lt_or_ge (Int.gcd a b) (n + 1) with hlt | hge
      · omega
      · exfalso
        have heq : Int.gcd a b = n + 1 := le_antisymm h hge
        apply hcond
        constructor
        · apply tmod_eq_zero_iff.mpr
          rw [← heq]
          exact Int.gcd_dvd_left
        · apply tmod_eq_zero_iff.mpr
          rw [← heq]
          exact Int.gcd_dvd_right

theorem GDC_eq_min {a b : Int} (h : min a b ≤ 0) : GDC a b = min a b := by
  rw [GDC, if_neg (not_lt.mpr h)]

theorem GDC_eq_gcd {a b : Int} (ha : 0 < a) (hb : 0 < b) :
    GDC a b = (Int.gcd a b : Int) := by
  have hmin : 0 < min a b := lt_min ha hb
  rw [GDC, if_pos hmin]
  apply GDCloop_eq_gcd ha hb
  have h1 : (Int.gcd a b : Int) ≤ a := Int.le_of_dvd ha Int.gcd_dvd_left
  have h2 : (Int.gcd a b : Int) ≤ b := Int.le_of_dvd hb Int.gcd_dvd_right
  omega

theorem GDC_ne_zero {a b : Int} (ha : a ≠ 0) (hb : b ≠ 0) : GDC a b ≠ 0 := by
  rw [GDC]
  split
  · next hmin =>
    obtain ⟨t, ht⟩ : ∃ t, (min a b).toNat = t + 1 := ⟨(min a b).toNat - 1, by omega⟩
    rw [ht]
    have := GDCloop_one_le a b t
    omega
  · next hmin =>
    rcases min_choice a b with h | h <;> rw [h] <;> assumption

theorem GDC_abs_le {a b : Int} (ha : a ≠ 0) (hb : b ≠ 0) :
    |GDC a b| ≤ |a * b| := by
  rw [abs_mul]
  have ha1 : 1 ≤ |a| := Int.one_le_abs ha
  have hb1 : 1 ≤ |b| := Int.one_le_abs hb
  rw [GDC]
  split
  · next hmin =>
    obtain ⟨t, ht⟩ : ∃ t, (min a b).toNat = t + 1 := ⟨(min a b).toNat - 1, by omega⟩
    rw [ht]
    have hpos := GDCloop_one_le a b t
    have hle : GDCloop a b (t + 1) ≤ ((t + 1 : Nat) : Int) := GDCloop_le a b (t + 1)
    have habs : |GDCloop a b (t + 1)| = GDCloop a b (t + 1) := abs_of_pos (by omega)
    have hmina : min a b ≤ a := min_le_left a b
    have haabs : a ≤ |a| := le_abs_self a
    have : |a| ≤ |a| * |b| := le_mul_of_one_le_right (abs_nonneg a) hb1
    omega
  · next hmin =>
    rcases min_choice a b with h | h <;> rw [h]
    · have : |a| ≤ |a| * |b| := le_mul_of_one_le_right (abs_nonneg a) hb1
      omega
    · have : |b| ≤ |a| * |b| := le_mul_of_one_le_left (abs_nonneg b) ha1
      omega

theorem LCM_ne_zero {a b : Int} (ha : a ≠ 0) (hb : b ≠ 0) : LCM a b ≠ 0 := by
  rw [LCM, if_neg (by push_neg; exact ⟨ha, hb⟩)]
  have hG := GDC_ne_zero ha hb
  have hGle := GDC_abs_le ha hb
  have hkey : 1 ≤ (Int.tdiv |a * b| (GDC a b)).natAbs := by
    rw [Int.natAbs_tdiv, Int.natAbs_abs]
    change 1 ≤ (a * b).natAbs / (GDC a b).natAbs
    rw [Nat.one_le_div_iff (by omega : 0 < (GDC a b).natAbs)]
    rw [Int.abs_eq_natAbs, Int.abs_eq_natAbs] at hGle
    exact_mod_cast hGle
  intro hzero
  rw [hzero] at hkey
  norm_num at hkey

theorem LCM_eq_lcm {a b : Int} (ha : 0 < a) (hb : 0 < b) :
    LCM a b = (Int.lcm a b : Int) := by
  rw [LCM, if_neg (by push_neg; omega)]
  rw [GDC_eq_gcd ha hb]
  have habs : |a * b| = a * b := abs_of_pos (mul_pos ha hb)
  have hmul : (Int.gcd a b : Int) * (Int.lcm a b : Int) = a * b := by
    have := Int.gcd_mul_lcm a b
    have hnat : ((Int.gcd a b * Int.lcm a b : Nat) : Int) = ((a * b).natAbs : Int) := by
      exact_mod_cast congrArg (Nat.cast : Nat → Int) this
    rw [Int.natAbs_of_nonneg (by positivity)] at hnat
    push_cast at hnat
    exact hnat
  rw [habs, ← hmul]
  refine Int.mul_tdiv_cancel_left _ ?_
  have hg : 0 < Int.gcd a b := Int.gcd_pos_of_ne_zero_left b (by omega)
  exact_mod_cast hg.ne'

end Fraction

/-! ### Properties of `simplify` -/

namespace Fraction

theorem tdiv_pos_of_dvd {g n : Int} (hg : 0 < g) (hn : 0 < n) (hdvd : g ∣ n) :
    0 < Int.tdiv n g := by
  have hcancel : g * Int.tdiv n g = n := Int.mul_tdiv_cancel' hdvd
  by_contra hq
  push_neg at hq
  nlinarith

theorem simplify_pos {f : Fraction} (hn : 0 < f.mNumerator) (hd : 0 < f.mDenominator) :
    ∃ f1, simplify f = some f1 ∧ 0 < f1.mNumerator ∧ 0 < f1.mDenominator ∧
      Int.gcd f1.mNumerator f1.mDenominator = 1 := by
  have hgcd : GDC f.mNumerator f.mDenominator = (Int.gcd f.mNumerator f.mDenominator : Int) :=
    GDC_eq_gcd hn hd
  have hgpos : 0 < Int.gcd f.mNumerator f.mDenominator :=
    Int.gcd_pos_of_ne_zero_left f.mDenominator (by omega)
  have hgposI : (0 : Int) < (Int.gcd f.mNumerator f.mDenominator : Int) := by exact_mod_cast hgpos
  refine ⟨⟨Int.tdiv f.mNumerator (Int.gcd f.mNumerator f.mDenominator : Int),
    Int.tdiv f.mDenominator (Int.gcd f.mNumerator f.mDenominator : Int)⟩, ?_, ?_, ?_, ?_⟩
  · rw [simplify]
    simp only [hgcd]
    rw [if_neg (by omega)]
  · exact tdiv_pos_of_dvd hgposI hn Int.gcd_dvd_left
  · exact tdiv_pos_of_dvd hgposI hd Int.gcd_dvd_right
  · rw [Int.tdiv_eq_ediv (by omega) (by omega), Int.tdiv_eq_ediv (by omega) (by omega)]
    exact Int.gcd_div_gcd_div_gcd hgpos

theorem simplify_of_gcd_one {f : Fraction} (hn : 0 < f.mNumerator)
    (hd : 0 < f.mDenominator) (hg : Int.gcd f.mNumerator f.mDenominator = 1) :
    simplify f = some f := by
  have hgcd : GDC f.mNumerator f.mDenominator = (1 : Int) := by
    rw [GDC_eq_gcd hn hd, hg]
    norm_num
  rw [simplify]
  simp only [hgcd]
  rw [if_neg (by norm_num)]
  simp [Int.tdiv_one]

end Fraction

/-! ### Properties of the converter loop -/

theorem cfLoop_guard : ∀ (fuel : Nat) (xValue epsilon x : ℚ) (h1 h2 k1 k2 h k : Int),
    cfLoop xValue epsilon h1 h2 k1 k2 x fuel = some (h, k) →
    |(h : ℚ) / (k : ℚ) - xValue| < xValue * epsilon := by
  intro fuel
  induction fuel with
  | zero =>
    intro xValue epsilon x h1 h2 k1 k2 h k hrun
    simp [cfLoop] at hrun
  | succ n ih =>
    intro xValue epsilon x h1 h2 k1 k2 h k hrun
    rw [cfLoop] at hrun
    split at hrun
    · next hguard =>
      obtain ⟨rfl, rfl⟩ : ⌊x⌋ * h1 + h2 = h ∧ ⌊x⌋ * k1 + k2 = k := by
        constructor <;> · injection hrun with hrun'; injection hrun'
      exact hguard
    · exact ih _ _ _ _ _ _ _ _ _ hrun

theorem to_Fraction_tolerance_pos {xValue xTolerance : ℚ} {fuel : Nat} {p : Int × Int}
    (h : to_Fraction xValue xTolerance fuel = .ok p) : 0 < xTolerance := by
  rw [to_Fraction] at h
  by_contra hle
  rw [if_pos (not_lt.mp hle)] at h
  exact absurd h (by simp)

theorem to_Fraction_small {xValue xTolerance : ℚ} (hε : 0 < xTolerance)
    (hv : |xValue| < xTolerance) (fuel : Nat) :
    to_Fraction xValue xTolerance fuel = .ok (0, 1) := by
  rw [to_Fraction, if_neg (not_le.mpr hε), if_pos]
  exact ⟨(abs_lt.mp hv).2, (abs_lt.mp hv).1⟩

theorem to_Fraction_ok_den {xValue xTolerance : ℚ} {fuel : Nat} {n d : Int}
    (hε1 : xTolerance ≤ 1) (h : to_Fraction xValue xTolerance fuel = .ok (n, d)) :
    d ≠ 0 := by
  have hε : 0 < xTolerance := to_Fraction_tolerance_pos h
  rw [to_Fraction, if_neg (not_le.mpr hε)] at h
  split at h
  · obtain ⟨rfl, rfl⟩ : (0 : Int) = n ∧ (1 : Int) = d := by
      constructor <;> · injection h with h'; injection h'
    norm_num
  · next hnotsmall =>
    have hx0 : xTolerance ≤ |xValue| := by
      by_contra hcon
      push_neg at hcon
      exact hnotsmall ⟨(abs_lt.mp hcon).2, (abs_lt.mp hcon).1⟩
    rcases hcf : cfLoop |xValue| xTolerance 1 0 0 1 |xValue| fuel with _ | ⟨h1, k1⟩
    · rw [hcf] at h
      exact absurd h (by simp)
    · rw [hcf] at h
      obtain ⟨rfl, rfl⟩ : (if xValue < 0 then (-1 : Int) else 1) * h1 = n ∧ k1 = d := by
        constructor <;> · injection h with h'; injection h'
      intro hd0
      subst hd0
      have hguard := cfLoop_guard _ _ _ _ _ _ _ _ _ _ hcf
      rw [Int.cast_zero, div_zero, zero_sub, abs_neg, abs_abs] at hguard
      nlinarith [abs_nonneg xValue]

theorem to_Fraction_ok_num {xValue xTolerance : ℚ} {fuel : Nat} {n d : Int}
    (hε1 : xTolerance ≤ 1) (hv : xTolerance ≤ |xValue|)
    (h : to_Fraction xValue xTolerance fuel = .ok (n, d)) : n ≠ 0 := by
  have hε : 0 < xTolerance := to_Fraction_tolerance_pos h
  rw [to_Fraction, if_neg (not_le.mpr hε)] at h
  rw [if_neg (by
    intro hsmall
    have habs : |xValue| < xTolerance := abs_lt.mpr ⟨hsmall.2, hsmall.1⟩
    exact absurd habs (not_lt.mpr hv))] at h
  rcases hcf : cfLoop |xValue| xTolerance 1 0 0 1 |xValue| fuel with _ | ⟨h1, k1⟩
  · rw [hcf] at h
    exact absurd h (by simp)
  · rw [hcf] at h
    obtain ⟨rfl, rfl⟩ : (if xValue < 0 then (-1 : Int) else 1) * h1 = n ∧ k1 = d := by
      constructor <;> · injection h with h'; injection h'
    intro hn0
    have hh1 : h1 = 0 := by
      rcases lt_or_ge xValue 0 with hneg | hpos
      · rw [if_pos hneg] at hn0; omega
      · rw [if_neg (not_lt.mpr hpos)] at hn0; omega
    subst hh1
    have hguard := cfLoop_guard _ _ _ _ _ _ _ _ _ _ hcf
    rw [Int.cast_zero, zero_div, zero_sub, abs_neg, abs_abs] at hguard
    nlinarith [abs_nonneg xValue]

/-! ### The convergent recurrence invariant -/

theorem cfInv_init {x0 : ℚ} (hx0 : 0 < x0) : cfInv x0 (cfInit x0) := by
  constructor
  · show x0 * (x0 * ((0 : Int) : ℚ) + ((1 : Int) : ℚ)) = x0 * ((1 : Int) : ℚ) + ((0 : Int) : ℚ)
    push_cast
    ring
  · show (0 : ℚ) < x0 * ((0 : Int) : ℚ) + ((1 : Int) : ℚ)
    push_cast
    linarith

theorem cfInv_step {x0 : ℚ} {s : CFState} (hInv : cfInv x0 s)
    (hne : s.x ≠ ((⌊s.x⌋ : Int) : ℚ)) : cfInv x0 (cfStep s) := by
  obtain ⟨h1eq, h2pos⟩ := hInv
  have hfr0 : (0 : ℚ) ≤ s.x - (⌊s.x⌋ : ℚ) := by
    have := Int.floor_le s.x
    linarith
  have hfr : (0 : ℚ) < s.x - (⌊s.x⌋ : ℚ) := by
    rcases lt_or_eq_of_le hfr0 with h | h
    · exact h
    · exact absurd (by linarith : s.x = ((⌊s.x⌋ : Int) : ℚ)) hne
  have hK : ((⌊s.x⌋ * s.k1 + s.k2 : Int) : ℚ) = (⌊s.x⌋ : ℚ) * (s.k1 : ℚ) + (s.k2 : ℚ) := by
    push_cast
    ring
  have hH : ((⌊s.x⌋ * s.h1 + s.h2 : Int) : ℚ) = (⌊s.x⌋ : ℚ) * (s.h1 : ℚ) + (s.h2 : ℚ) := by
    push_cast
    ring
  have hfrne : s.x - (⌊s.x⌋ : ℚ) ≠ 0 := ne_of_gt hfr
  have expand : ∀ u v : ℚ,
      1 / (s.x - (⌊s.x⌋ : ℚ)) * u + v = (u + (s.x - (⌊s.x⌋ : ℚ)) * v) / (s.x - (⌊s.x⌋ : ℚ)) := by
    intro u v
    rw [eq_div_iff hfrne]
    calc (1 / (s.x - (⌊s.x⌋ : ℚ)) * u + v) * (s.x - (⌊s.x⌋ : ℚ))
        = u * ((s.x - (⌊s.x⌋ : ℚ))⁻¹ * (s.x - (⌊s.x⌋ : ℚ))) + v * (s.x - (⌊s.x⌋ : ℚ)) := by
          rw [one_div]; ring
      _ = u + (s.x - (⌊s.x⌋ : ℚ)) * v := by rw [inv_mul_cancel₀ hfrne]; ring
  constructor
  · show x0 * (1 / (s.x - (⌊s.x⌋ : ℚ)) * ((⌊s.x⌋ * s.k1 + s.k2 : Int) : ℚ) + (s.k1 : ℚ)) =
      1 / (s.x - (⌊s.x⌋ : ℚ)) * ((⌊s.x⌋ * s.h1 + s.h2 : Int) : ℚ) + (s.h1 : ℚ)
    rw [hK, hH, expand, expand, ← mul_div_assoc]
    have hnum : x0 * ((⌊s.x⌋ : ℚ) * (s.k1 : ℚ) + (s.k2 : ℚ) + (s.x - (⌊s.x⌋ : ℚ)) * (s.k1 : ℚ)) =
        (⌊s.x⌋ : ℚ) * (s.h1 : ℚ) + (s.h2 : ℚ) + (s.x - (⌊s.x⌋ : ℚ)) * (s.h1 : ℚ) := by
      linear_combination h1eq
    rw [hnum]
  · show (0 : ℚ) < 1 / (s.x - (⌊s.x⌋ : ℚ)) * ((⌊s.x⌋ * s.k1 + s.k2 : Int) : ℚ) + (s.k1 : ℚ)
    rw [hK, expand]
    have hnum : (⌊s.x⌋ : ℚ) * (s.k1 : ℚ) + (s.k2 : ℚ) + (s.x - (⌊s.x⌋ : ℚ)) * (s.k1 : ℚ) =
        s.x * (s.k1 : ℚ) + (s.k2 : ℚ) := by ring
    rw [hnum]
    exact div_pos h2pos hfr

theorem cfInv_iterate {x0 : ℚ} (hx0 : 0 < x0) :
    ∀ m : Nat, (∀ i, i < m → ¬ cfExact x0 i) → cfInv x0 (cfStep^[m] (cfInit x0)) := by
  intro m
  induction m with
  | zero =>
    intro _
    exact cfInv_init hx0
  | succ p ih =>
    intro hgen
    rw [Function.iterate_succ_apply' cfStep p (cfInit x0)]
    exact cfInv_step (ih (fun i hi => hgen i (by omega))) (hgen p (by omega))

theorem cfExact_good {x0 epsilon : ℚ} (hx0 : 0 < x0) (hε : 0 < epsilon) {m : Nat}
    (hInv : cfInv x0 (cfStep^[m] (cfInit x0))) (hex : cfExact x0 m) :
    cfGood x0 epsilon m := by
  obtain ⟨h1eq, h2pos⟩ := hInv
  have hex' : (cfStep^[m] (cfInit x0)).x =
      ((⌊(cfStep^[m] (cfInit x0)).x⌋ : Int) : ℚ) := hex
  have hH : cfConvH x0 m =
      ⌊(cfStep^[m] (cfInit x0)).x⌋ * (cfStep^[m] (cfInit x0)).h1 + (cfStep^[m] (cfInit x0)).h2 := by
    rw [cfConvH, Function.iterate_succ_apply' cfStep m (cfInit x0)]
    rfl
  have hK : cfConvK x0 m =
      ⌊(cfStep^[m] (cfInit x0)).x⌋ * (cfStep^[m] (cfInit x0)).k1 + (cfStep^[m] (cfInit x0)).k2 := by
    rw [cfConvK, Function.iterate_succ_apply' cfStep m (cfInit x0)]
    rfl
  have hKpos : (0 : ℚ) < (cfConvK x0 m : ℚ) := by
    rw [hK]
    push_cast
    rw [← hex']
    exact h2pos
  have hHval : ((cfConvH x0 m : Int) : ℚ) = x0 * ((cfConvK x0 m : Int) : ℚ) := by
    rw [hH, hK]
    push_cast
    rw [← hex']
    linarith [h1eq]
  rw [cfGood, hHval, mul_div_assoc, div_self (ne_of_gt hKpos), mul_one, sub_self, abs_zero]
  positivity

/-! ### Monotonicity of the convergent denominators -/

theorem cfK_bounds (x0 : ℚ) : ∀ m : Nat, 1 ≤ m → (∀ i, i < m → ¬ cfExact x0 i) →
    1 ≤ (cfStep^[m] (cfInit x0)).k1 ∧ 0 ≤ (cfStep^[m] (cfInit x0)).k2 ∧
      (cfStep^[m] (cfInit x0)).k2 ≤ (cfStep^[m] (cfInit x0)).k1 ∧
      1 < (cfStep^[m] (cfInit x0)).x := by
  intro m
  induction m with
  | zero => intro h; omega
  | succ p ih =>
    intro _ hgen
    rw [Function.iterate_succ_apply' cfStep p (cfInit x0)]
    rcases Nat.eq_zero_or_pos p with rfl | hp
    · have hne : (cfInit x0).x ≠ ((⌊(cfInit x0).x⌋ : Int) : ℚ) := hgen 0 (by omega)
      have hfr0 : (0 : ℚ) ≤ (cfInit x0).x - (⌊(cfInit x0).x⌋ : ℚ) := by
        have := Int.floor_le (cfInit x0).x
        linarith
      have hfr : (0 : ℚ) < (cfInit x0).x - (⌊(cfInit x0).x⌋ : ℚ) := by
        rcases lt_or_eq_of_le hfr0 with h | h
        · exact h
        · exact absurd (by linarith : (cfInit x0).x = ((⌊(cfInit x0).x⌋ : Int) : ℚ)) hne
      refine ⟨?_, ?_, ?_, ?_⟩
      · show 1 ≤ ⌊(cfInit x0).x⌋ * 0 + 1
        omega
      · show (0 : Int) ≤ 0
        omega
      · show (0 : Int) ≤ ⌊(cfInit x0).x⌋ * 0 + 1
        omega
      · show 1 < 1 / ((cfInit x0).x - ((⌊(cfInit x0).x⌋ : Int) : ℚ))
        rw [lt_div_iff₀ hfr]
        have := Int.lt_floor_add_one (cfInit x0).x
        push_cast at this ⊢
        linarith
    · obtain ⟨hk1, hk2, hk21, hx⟩ := ih hp (fun i hi => hgen i (by omega))
      have hne : (cfStep^[p] (cfInit x0)).x ≠ ((⌊(cfStep^[p] (cfInit x0)).x⌋ : Int) : ℚ) :=
        hgen p (by omega)
      have ha : 1 ≤ ⌊(cfStep^[p] (cfInit x0)).x⌋ := by
        rw [Int.le_floor]
        push_cast
        linarith
      have hfr0 : (0 : ℚ) ≤ (cfStep^[p] (cfInit x0)).x - (⌊(cfStep^[p] (cfInit x0)).x⌋ : ℚ) := by
        have := Int.floor_le (cfStep^[p] (cfInit x0)).x
        linarith
      have hfr : (0 : ℚ) < (cfStep^[p] (cfInit x0)).x - (⌊(cfStep^[p] (cfInit x0)).x⌋ : ℚ) := by
        rcases lt_or_eq_of_le hfr0 with h | h
        · exact h
        · exact absurd (by linarith :
            (cfStep^[p] (cfInit x0)).x = ((⌊(cfStep^[p] (cfInit x0)).x⌋ : Int) : ℚ)) hne
      refine ⟨?_, ?_, ?_, ?_⟩
      · show 1 ≤ ⌊(cfStep^[p] (cfInit x0)).x⌋ * (cfStep^[p] (cfInit x0)).k1 +
          (cfStep^[p] (cfInit x0)).k2
        nlinarith
      · show 0 ≤ (cfStep^[p] (cfInit x0)).k1
        omega
      · show (cfStep^[p] (cfInit x0)).k1 ≤ ⌊(cfStep^[p] (cfInit x0)).x⌋ *
          (cfStep^[p] (cfInit x0)).k1 + (cfStep^[p] (cfInit x0)).k2
        nlinarith
      · show 1 < 1 / ((cfStep^[p] (cfInit x0)).x - ((⌊(cfStep^[p] (cfInit x0)).x⌋ : Int) : ℚ))
        rw [lt_div_iff₀ hfr]
        have := Int.lt_floor_add_one (cfStep^[p] (cfInit x0)).x
        push_cast at this ⊢
        linarith

theorem cfConvK_step (x0 : ℚ) (p : Nat) (hgen : ∀ i, i < p + 1 → ¬ cfExact x0 i) :
    cfConvK x0 p ≤ cfConvK x0 (p + 1) := by
  obtain ⟨hk1, hk2, hk21, hx⟩ := cfK_bounds x0 (p + 1) (by omega) hgen
  have ha : 1 ≤ ⌊(cfStep^[p + 1] (cfInit x0)).x⌋ := by
    rw [Int.le_floor]
    push_cast
    linarith
  rw [cfConvK, cfConvK, Function.iterate_succ_apply' cfStep (p + 1) (cfInit x0)]
  show (cfStep^[p + 1] (cfInit x0)).k1 ≤
    ⌊(cfStep^[p + 1] (cfInit x0)).x⌋ * (cfStep^[p + 1] (cfInit x0)).k1 +
      (cfStep^[p + 1] (cfInit x0)).k2
  nlinarith

theorem cfConvK_mono (x0 : ℚ) : ∀ N m : Nat, N ≤ m → (∀ i, i < m → ¬ cfExact x0 i) →
    cfConvK x0 N ≤ cfConvK x0 m := by
  intro N m
  induction m with
  | zero =>
    intro hNm _
    have : N = 0 := by omega
    subst this
    exact le_refl _
  | succ p ih =>
    intro hNm hgen
    rcases Nat.lt_or_ge N (p + 1) with hlt | hge
    · exact le_trans (ih (by omega) (fun i hi => hgen i (by omega))) (cfConvK_step x0 p hgen)
    · have : N = p + 1 := by omega
      subst this
      exact le_refl _

/-! ### The loop returns the first convergent whose guard holds -/

theorem cfLoop_run (x0 epsilon : ℚ) : ∀ (fuel m : Nat) (h k : Int),
    cfLoop x0 epsilon (cfStep^[m] (cfInit x0)).h1 (cfStep^[m] (cfInit x0)).h2
      (cfStep^[m] (cfInit x0)).k1 (cfStep^[m] (cfInit x0)).k2
      (cfStep^[m] (cfInit x0)).x fuel = some (h, k) →
    ∃ N, m ≤ N ∧ h = cfConvH x0 N ∧ k = cfConvK x0 N ∧ cfGood x0 epsilon N ∧
      ∀ i, m ≤ i → i < N → ¬ cfGood x0 epsilon i := by
  intro fuel
  induction fuel with
  | zero =>
    intro m h k hrun
    rw [cfLoop] at hrun
    exact absurd hrun (by simp)
  | succ p ih =>
    intro m h k hrun
    have hstep : cfStep^[m + 1] (cfInit x0) = cfStep (cfStep^[m] (cfInit x0)) :=
      Function.iterate_succ_apply' cfStep m (cfInit x0)
    rw [cfLoop] at hrun
    split at hrun
    · next hguard =>
      obtain ⟨hh, hk⟩ : ⌊(cfStep^[m] (cfInit x0)).x⌋ * (cfStep^[m] (cfInit x0)).h1 +
            (cfStep^[m] (cfInit x0)).h2 = h ∧
          ⌊(cfStep^[m] (cfInit x0)).x⌋ * (cfStep^[m] (cfInit x0)).k1 +
            (cfStep^[m] (cfInit x0)).k2 = k := by
        constructor <;> · injection hrun with hrun'; injection hrun'
      refine ⟨m, le_refl m, ?_, ?_, ?_, ?_⟩
      · rw [cfConvH, hstep]
        exact hh.symm
      · rw [cfConvK, hstep]
        exact hk.symm
      · simp only [cfGood, cfConvH, cfConvK, hstep]
        exact hguard
      · intro i h1 h2
        omega
    · next hguard =>
      have harg : cfLoop x0 epsilon (cfStep^[m + 1] (cfInit x0)).h1
          (cfStep^[m + 1] (cfInit x0)).h2 (cfStep^[m + 1] (cfInit x0)).k1
          (cfStep^[m + 1] (cfInit x0)).k2 (cfStep^[m + 1] (cfInit x0)).x p = some (h, k) := by
        rw [hstep]
        exact hrun
      obtain ⟨N, hmN, hh, hk, hgood, hmin⟩ := ih (m + 1) h k harg
      refine ⟨N, by omega, hh, hk, hgood, ?_⟩
      intro i hmi hiN
      rcases Nat.eq_or_lt_of_le hmi with heq | hlt
      · subst heq
        intro hcontra
        apply hguard
        simp only [cfGood, cfConvH, cfConvK, hstep] at hcontra
        exact hcontra
      · exact hmin i (by omega) hiN

/-! ### Preservation of a nonzero denominator -/

namespace Fraction

theorem addAssign_den_ne_zero {f g : Fraction} (hf : f.mDenominator ≠ 0)
    (hg : g.mDenominator ≠ 0) : (addAssign f g).mDenominator ≠ 0 := by
  rw [addAssign]
  split
  · exact LCM_ne_zero hf hg
  · exact hf

theorem subAssign_den_ne_zero {f g : Fraction} (hf : f.mDenominator ≠ 0)
    (hg : g.mDenominator ≠ 0) : (subAssign f g).mDenominator ≠ 0 := by
  rw [subAssign]
  split
  · exact LCM_ne_zero hf hg
  · exact hf

theorem simplify_den_ne_zero {f : Fraction} (hn : 0 < f.mNumerator)
    (hd : 0 < f.mDenominator) {f1 : Fraction} (h : simplify f = some f1) :
    f1.mDenominator ≠ 0 := by
  obtain ⟨f1', hs, _, hd1, _⟩ := simplify_pos hn hd
  rw [hs] at h
  injection h with h'
  subst h'
  omega

end Fraction

/-! ### Claims -/

/-- C3 (code bug): on a Fraction with numerator `0` and denominator `2`,
the private GCD helper returns `0`, so `simplify()` divides both fields by
zero — undefined behaviour in the source (modelled as `none`), not the
guarded `GCD(0, d) = d` behaviour the specification describes. -/
theorem C3_simplify_zero_numerator_divides_by_zero :
    Fraction.GDC 0 2 = 0 ∧ Fraction.simplify ⟨0, 2⟩ = none := by decide

/-- C4 (amended): `simplify()` is idempotent for fractions whose numerator
and denominator are both positive: one call succeeds and a second call
leaves the state unchanged. -/
theorem C4_simplify_idempotent_on_positives : ∀ f : Fraction,
    0 < f.mNumerator → 0 < f.mDenominator →
    ∃ f1, Fraction.simplify f = some f1 ∧ Fraction.simplify f1 = some f1 := by
  intro f hn hd
  obtain ⟨f1, hs, hn1, hd1, hg1⟩ := Fraction.simplify_pos hn hd
  exact ⟨f1, hs, Fraction.simplify_of_gcd_one hn1 hd1 hg1⟩

/-- C4 witness: the theorem applied to the concrete Fraction `4/6`. -/
theorem C4_simplify_idempotent_witness :
    0 < (⟨4, 6⟩ : Fraction).mNumerator ∧ 0 < (⟨4, 6⟩ : Fraction).mDenominator ∧
      ∃ f1, Fraction.simplify ⟨4, 6⟩ = some f1 ∧ Fraction.simplify f1 = some f1 :=
  ⟨by decide, by decide, C4_simplify_idempotent_on_positives ⟨4, 6⟩ (by decide) (by decide)⟩

/-- C4 counterexample: for `(-2)/4` (a valid Fraction, denominator nonzero)
one `simplify()` yields `1/(-2)` but a second yields `0/1`, so the claim
"simplify applied twice equals simplify applied once" fails as stated. -/
theorem C4_simplify_not_idempotent_counterexample :
    ((4 : Int) ≠ 0) ∧ Fraction.simplify ⟨-2, 4⟩ = some ⟨1, -2⟩ ∧
      Fraction.simplify ⟨1, -2⟩ = some ⟨0, 1⟩ ∧
      ((⟨1, -2⟩ : Fraction) ≠ (⟨0, 1⟩ : Fraction)) := by decide

/-- C7: constructing `Fraction(n, d)` succeeds exactly when `d ≠ 0`, in
which case the stored fields are exactly `n` and `d`; with `d = 0` it fails
with the invalid-denominator error. -/
theorem C7_constructor_validation : ∀ n d : Int,
    ((∃ f, Fraction.mk? n d = .ok f ∧ f.getNumerator = n ∧ f.getDenominator = d) ↔ d ≠ 0) ∧
    (Fraction.mk? n d = .error .invalidDenominator ↔ d = 0) := by
  intro n d
  constructor
  · constructor
    · rintro ⟨f, hok, _, _⟩ hd0
      rw [Fraction.mk?, if_pos hd0] at hok
      exact absurd hok (by simp)
    · intro hd
      exact ⟨⟨n, d⟩, by rw [Fraction.mk?, if_neg hd], rfl, rfl⟩
  · constructor
    · intro herr
      by_contra hd
      rw [Fraction.mk?, if_neg hd] at herr
      exact absurd herr (by simp)
    · intro hd
      rw [Fraction.mk?, if_pos hd]

/-- C8: `to_Fraction` reports the invalid-tolerance error exactly when the
tolerance is non-positive; for a positive tolerance that error is never
raised (the only other outcomes are a result or fuel exhaustion). -/
theorem C8_invalid_tolerance_iff : ∀ (xValue xTolerance : ℚ) (fuel : Nat),
    to_Fraction xValue xTolerance fuel = .error .invalidTolerance ↔ xTolerance ≤ 0 := by
  intro v ε fuel
  constructor
  · intro h
    by_contra hpos
    push_neg at hpos
    rw [to_Fraction, if_neg (not_le.mpr hpos)] at h
    split at h
    · exact absurd h (by simp)
    · rcases hcf : cfLoop |v| ε 1 0 0 1 |v| fuel with _ | ⟨h1, k1⟩
      · rw [hcf] at h
        exact LibError.noConfusion (Except.error.inj h)
      · rw [hcf] at h
        exact absurd h (by simp)
  · intro h
    rw [to_Fraction, if_pos h]

/-- C9: whenever `min a b ≤ 0` — in particular for a zero numerator or a
negative field — the private `GDC` returns `min a b` itself (not the
mathematical gcd), and the public `GCD()` member exposes `GDC` applied to
the two fields. -/
theorem C9_gdc_returns_min_on_nonpositive : ∀ (a b : Int) (f : Fraction), min a b ≤ 0 →
    Fraction.GDC a b = min a b ∧ f.GCD = Fraction.GDC f.mNumerator f.mDenominator := by
  intro a b f h
  exact ⟨Fraction.GDC_eq_min h, rfl⟩

/-- C9 witness: `GDC(0, 2) = 0` on the Fraction `0/2`. -/
theorem C9_gdc_returns_min_witness :
    min (0 : Int) 2 ≤ 0 ∧
      (Fraction.GDC 0 2 = min (0 : Int) 2 ∧
        (⟨0, 2⟩ : Fraction).GCD =
          Fraction.GDC (⟨0, 2⟩ : Fraction).mNumerator (⟨0, 2⟩ : Fraction).mDenominator) :=
  ⟨by decide, C9_gdc_returns_min_on_nonpositive 0 2 ⟨0, 2⟩ (by decide)⟩

/-- C10: the scalar compound operators are total and each modifies exactly
one field: `*=` multiplies only the numerator, `/=` multiplies only the
denominator. -/
theorem C10_scalar_ops_frame : ∀ (f : Fraction) (k : Int),
    (Fraction.mulAssignScalar f k).getNumerator = f.getNumerator * k ∧
    (Fraction.mulAssignScalar f k).getDenominator = f.getDenominator ∧
    (Fraction.divAssignScalar f k).getNumerator = f.getNumerator ∧
    (Fraction.divAssignScalar f k).getDenominator = f.getDenominator * k := by
  intro f k
  exact ⟨rfl, rfl, rfl, rfl⟩

/-- C5: `operator==` is structural (both fields pairwise equal), while the
three-way comparison orders by the rational values of the two ratios; hence
`1/2` and `2/4` are "equal" under the ordering but "not equal" under
`operator==`. -/
theorem C5_structural_equality_ratio_ordering : ∀ f g : Fraction,
    (Fraction.eqOp f g = true ↔
      f.mNumerator = g.mNumerator ∧ f.mDenominator = g.mDenominator) ∧
    (f.mDenominator ≠ 0 → g.mDenominator ≠ 0 →
      ((Fraction.compareOp f g = .lt ↔
          (f.mNumerator : ℚ) / (f.mDenominator : ℚ) < (g.mNumerator : ℚ) / (g.mDenominator : ℚ)) ∧
        (Fraction.compareOp f g = .gt ↔
          (g.mNumerator : ℚ) / (g.mDenominator : ℚ) < (f.mNumerator : ℚ) / (f.mDenominator : ℚ)) ∧
        (Fraction.compareOp f g = .eq ↔
          (f.mNumerator : ℚ) / (f.mDenominator : ℚ) = (g.mNumerator : ℚ) / (g.mDenominator : ℚ)))) ∧
    Fraction.compareOp ⟨1, 2⟩ ⟨2, 4⟩ = .eq ∧ Fraction.eqOp ⟨1, 2⟩ ⟨2, 4⟩ = false := by
  intro f g
  refine ⟨?_, ?_, ?_, by decide⟩
  · rw [Fraction.eqOp, Bool.and_eq_true, beq_iff_eq, beq_iff_eq]
    constructor
    · rintro ⟨h1, h2⟩
      exact ⟨h2, h1⟩
    · rintro ⟨h1, h2⟩
      exact ⟨h2, h1⟩
  · intro hf hg
    simp only [Fraction.compareOp]
    rw [if_neg (by push_neg; exact ⟨hf, hg⟩)]
    rcases lt_trichotomy ((f.mNumerator : ℚ) / (f.mDenominator : ℚ))
        ((g.mNumerator : ℚ) / (g.mDenominator : ℚ)) with h | h | h
    · rw [if_pos h]
      refine ⟨⟨fun _ => h, fun _ => rfl⟩, ?_, ?_⟩
      · exact ⟨fun hcon => absurd hcon (by decide),
          fun hrl => absurd (lt_trans h hrl) (lt_irrefl _)⟩
      · exact ⟨fun hcon => absurd hcon (by decide),
          fun heq => absurd (heq ▸ h) (lt_irrefl _)⟩
    · rw [if_neg (h ▸ lt_irrefl _), if_neg (h ▸ lt_irrefl _)]
      refine ⟨?_, ?_, ⟨fun _ => h, fun _ => rfl⟩⟩
      · exact ⟨fun hcon => absurd hcon (by decide),
          fun hlt => absurd (h ▸ hlt) (lt_irrefl _)⟩
      · exact ⟨fun hcon => absurd hcon (by decide),
          fun hgt => absurd (h ▸ hgt) (lt_irrefl _)⟩
    · rw [if_neg (not_lt.mpr (le_of_lt h)), if_pos h]
      refine ⟨?_, ⟨fun _ => h, fun _ => rfl⟩, ?_⟩
      · exact ⟨fun hcon => absurd hcon (by decide),
          fun hlt => absurd (lt_trans h hlt) (lt_irrefl _)⟩
      · exact ⟨fun hcon => absurd hcon (by decide),
          fun heq => absurd (heq ▸ h) (lt_irrefl _)⟩
  · norm_num [Fraction.compareOp]

/-- C5 witness: the concrete pair `1/2`, `2/4` compares "equal" under the
ordering operator yet "not equal" under `operator==`. -/
theorem C5_structural_equality_ratio_ordering_witness :
    Fraction.compareOp ⟨1, 2⟩ ⟨2, 4⟩ = .eq ∧ Fraction.eqOp ⟨1, 2⟩ ⟨2, 4⟩ = false :=
  ⟨(C5_structural_equality_ratio_ordering ⟨1, 2⟩ ⟨2, 4⟩).2.2.1,
    (C5_structural_equality_ratio_ordering ⟨1, 2⟩ ⟨2, 4⟩).2.2.2⟩

/-- C6 (amended): for positive denominators, `+=` adds numerators when the
denominators agree and otherwise combines over the mathematical least common
multiple exactly as the claim's formula states; `3/4 + 2/5 = 23/20`. For a
negative denominator the code's LCM helper deviates from the mathematical
least common multiple (see the counterexample). -/
theorem C6_addition_lcm_on_positive_denominators : ∀ f g : Fraction,
    0 < f.mDenominator → 0 < g.mDenominator →
    (f.mDenominator = g.mDenominator →
      Fraction.addAssign f g = ⟨f.mNumerator + g.mNumerator, f.mDenominator⟩) ∧
    (f.mDenominator ≠ g.mDenominator →
      Fraction.addAssign f g =
        ⟨f.mNumerator * Int.tdiv (Int.lcm f.mDenominator g.mDenominator : Int) f.mDenominator +
            g.mNumerator * Int.tdiv (Int.lcm f.mDenominator g.mDenominator : Int) g.mDenominator,
          (Int.lcm f.mDenominator g.mDenominator : Int)⟩) ∧
    Fraction.addAssign ⟨3, 4⟩ ⟨2, 5⟩ = ⟨23, 20⟩ := by
  intro f g hf hg
  refine ⟨?_, ?_, by decide⟩
  · intro heq
    rw [Fraction.addAssign, if_neg (not_not_intro heq)]
  · intro hne
    simp only [Fraction.addAssign]
    rw [if_pos hne, Fraction.LCM_eq_lcm hf hg]

/-- C6 witness: the theorem applied to `3/4` and `2/5`. -/
theorem C6_addition_lcm_witness :
    0 < (⟨3, 4⟩ : Fraction).mDenominator ∧ 0 < (⟨2, 5⟩ : Fraction).mDenominator ∧
      Fraction.addAssign ⟨3, 4⟩ ⟨2, 5⟩ = ⟨23, 20⟩ :=
  ⟨by decide, by decide,
    (C6_addition_lcm_on_positive_denominators ⟨3, 4⟩ ⟨2, 5⟩ (by decide) (by decide)).2.2⟩

/-- C6 counterexample: for the valid Fractions `1/(-4)` and `1/5` (denominators
nonzero) the result of `+=` is `0/(-5)`, whose denominator is not the least
common multiple `20` of the two denominators (and whose numerator differs from
the claim's rescaling formula, which would give `-1`). -/
theorem C6_addition_lcm_counterexample :
    ((-4 : Int) ≠ 0) ∧ ((5 : Int) ≠ 0) ∧
      Fraction.addAssign ⟨1, -4⟩ ⟨1, 5⟩ = ⟨0, -5⟩ ∧ (Int.lcm (-4) 5 : Int) = 20 ∧
      (Fraction.addAssign ⟨1, -4⟩ ⟨1, 5⟩).mDenominator ≠ (Int.lcm (-4) 5 : Int) := by
  decide

/-- C1 (amended): from any Fraction with nonzero denominator, `+=`, `-=`
and `*=` with Fraction, integral or (successfully converted) floating
operands keep the denominator nonzero, and so does `simplify()` on positive
fractions; `/=` keeps it nonzero exactly when the divisor's numerator (for a
Fraction or converted float with `|v| ≥ ε`, `ε ≤ 1`) or the scalar is
nonzero — dividing by a zero-numerator Fraction or the scalar `0` silently
zeroes the denominator (see the counterexample). -/
theorem C1_compound_ops_preserve_denominator : ∀ (f g : Fraction) (k : Int) (v ε : ℚ)
    (fuel : Nat) (f' : Fraction), f.mDenominator ≠ 0 → g.mDenominator ≠ 0 →
    C1Conclusion f g k v ε fuel f' := by
  intro f g k v ε fuel f' hf hg
  refine ⟨Fraction.addAssign_den_ne_zero hf hg, Fraction.subAssign_den_ne_zero hf hg,
    mul_ne_zero hf hg, fun hnum => mul_ne_zero hf hnum,
    Fraction.addAssign_den_ne_zero hf one_ne_zero,
    Fraction.subAssign_den_ne_zero hf one_ne_zero,
    hf, fun hk => mul_ne_zero hf hk,
    fun hn hd f1 h => Fraction.simplify_den_ne_zero hn hd h, ?_, ?_, ?_, ?_⟩
  · intro hε1 hsome
    unfold Fraction.addAssignFloat at hsome
    rcases hto : to_Fraction v ε fuel with e | ⟨nn, dd⟩
    · rw [hto] at hsome
      exact absurd hsome (by simp)
    · rw [hto] at hsome
      injection hsome with h'
      subst h'
      exact Fraction.addAssign_den_ne_zero hf (to_Fraction_ok_den hε1 hto)
  · intro hε1 hsome
    unfold Fraction.subAssignFloat at hsome
    rcases hto : to_Fraction v ε fuel with e | ⟨nn, dd⟩
    · rw [hto] at hsome
      exact absurd hsome (by simp)
    · rw [hto] at hsome
      injection hsome with h'
      subst h'
      exact Fraction.subAssign_den_ne_zero hf (to_Fraction_ok_den hε1 hto)
  · intro hε1 hsome
    unfold Fraction.mulAssignFloat at hsome
    rcases hto : to_Fraction v ε fuel with e | ⟨nn, dd⟩
    · rw [hto] at hsome
      exact absurd hsome (by simp)
    · rw [hto] at hsome
      injection hsome with h'
      subst h'
      exact mul_ne_zero hf (to_Fraction_ok_den hε1 hto)
  · intro hε1 hv hsome
    unfold Fraction.divAssignFloat at hsome
    rcases hto : to_Fraction v ε fuel with e | ⟨nn, dd⟩
    · rw [hto] at hsome
      exact absurd hsome (by simp)
    · rw [hto] at hsome
      injection hsome with h'
      subst h'
      exact mul_ne_zero hf (to_Fraction_ok_num hε1 hv hto)

/-- C1 witness: the theorem applied to concrete receivers and operands. -/
theorem C1_compound_ops_preserve_denominator_witness :
    ((⟨1, 2⟩ : Fraction).mDenominator ≠ 0) ∧ ((⟨1, 3⟩ : Fraction).mDenominator ≠ 0) ∧
      C1Conclusion ⟨1, 2⟩ ⟨1, 3⟩ 5 (11/8) (1/2) 6 ⟨1, 2⟩ :=
  ⟨by decide, by decide,
    C1_compound_ops_preserve_denominator ⟨1, 2⟩ ⟨1, 3⟩ 5 (11/8) (1/2) 6 ⟨1, 2⟩
      (by decide) (by decide)⟩

/-- C1 counterexample: starting from valid Fractions, `/=` by the
zero-numerator Fraction `0/3` yields denominator `0`, `/=` by the scalar `0`
yields denominator `0`, and `simplify()` on `(-5)/2` yields `1/0` — so the
claimed invariant fails as stated for `/=` and `simplify`. -/
theorem C1_compound_ops_counterexample :
    ((⟨1, 2⟩ : Fraction).mDenominator ≠ 0) ∧ ((⟨0, 3⟩ : Fraction).mDenominator ≠ 0) ∧
      (Fraction.divAssign ⟨1, 2⟩ ⟨0, 3⟩).getDenominator = 0 ∧
      (Fraction.divAssignScalar ⟨1, 2⟩ 0).getDenominator = 0 ∧
      ((⟨-5, 2⟩ : Fraction).mDenominator ≠ 0) ∧
      Fraction.simplify ⟨-5, 2⟩ = some ⟨1, 0⟩ := by
  decide

/-- C2 (amended): for tolerance `0 < ε`, an input with `|v| < ε` is
short-circuited to `0/1` (which need not satisfy the relative bound, see the
counterexample); for `ε ≤ |v|`, whenever the converter returns a pair
`(n, d)` its exact ratio satisfies `|n/d − v| < |v|·ε`, and `d` is the
smallest denominator among the genuine continued-fraction convergents whose
guard satisfies that bound. -/
theorem C2_to_Fraction_approximation : ∀ (v ε : ℚ) (fuel : Nat) (n d : Int),
    0 < ε → C2Conclusion v ε fuel n d := by
  intro v ε fuel n d hε
  constructor
  · intro hv
    exact to_Fraction_small hε hv fuel
  · intro hv h
    have hx0 : (0 : ℚ) < |v| := lt_of_lt_of_le hε hv
    rw [to_Fraction, if_neg (not_le.mpr hε)] at h
    rw [if_neg (by
      intro hsmall
      exact absurd (abs_lt.mpr ⟨hsmall.2, hsmall.1⟩) (not_lt.mpr hv))] at h
    rcases hcf : cfLoop |v| ε 1 0 0 1 |v| fuel with _ | ⟨h1, k1⟩
    · rw [hcf] at h
      exact absurd h (by simp)
    · rw [hcf] at h
      obtain ⟨hn, hd⟩ : (if v < 0 then (-1 : Int) else 1) * h1 = n ∧ k1 = d := by
        constructor <;> · injection h with h'; injection h'
      subst hd
      have hrun : cfLoop |v| ε (cfStep^[0] (cfInit |v|)).h1 (cfStep^[0] (cfInit |v|)).h2
          (cfStep^[0] (cfInit |v|)).k1 (cfStep^[0] (cfInit |v|)).k2
          (cfStep^[0] (cfInit |v|)).x fuel = some (h1, k1) := hcf
      obtain ⟨N, _, hhN, hkN, hgood, hmin⟩ := cfLoop_run |v| ε fuel 0 h1 k1 hrun
      have hbound : abs ((h1 : ℚ) / (k1 : ℚ) - |v|) < |v| * ε := by
        rw [cfGood] at hgood
        rw [← hhN, ← hkN] at hgood
        exact hgood
      constructor
      · rcases lt_or_ge v 0 with hneg | hpos
        · rw [if_pos hneg] at hn
          have heq : (n : ℚ) / (k1 : ℚ) - v = -((h1 : ℚ) / (k1 : ℚ) - |v|) := by
            rw [← hn]
            push_cast
            rw [abs_of_neg hneg]
            ring
          rw [heq, abs_neg]
          exact hbound
        · rw [if_neg (not_lt.mpr hpos)] at hn
          have heq : (n : ℚ) / (k1 : ℚ) - v = (h1 : ℚ) / (k1 : ℚ) - |v| := by
            rw [← hn]
            push_cast
            rw [abs_of_nonneg hpos]
            ring
          rw [heq]
          exact hbound
      · intro m hgenm hgoodm
        rw [hkN]
        rcases Nat.lt_or_ge m N with hlt | hge
        · exact absurd hgoodm (hmin m (by omega) hlt)
        · exact cfConvK_mono |v| N m hge hgenm

/-- C2 witness: the theorem applied at `v = 11/8`, `ε = 1/1000`, where the
converter indeed returns the pair `(11, 8)`. -/
theorem C2_to_Fraction_approximation_witness :
    (0 : ℚ) < 1/1000 ∧ to_Fraction (11/8) (1/1000) 6 = .ok (11, 8) ∧
      C2Conclusion (11/8) (1/1000) 6 11 8 := by
  refine ⟨by norm_num, ?_, C2_to_Fraction_approximation (11/8) (1/1000) 6 11 8 (by norm_num)⟩
  have a1 : ⌊(11/8 : ℚ)⌋ = 1 := by norm_num
  have a2 : ⌊(8/3 : ℚ)⌋ = 2 := by norm_num
  have a3 : ⌊(3/2 : ℚ)⌋ = 1 := by norm_num
  have b0 : |(11/8 : ℚ)| = 11/8 := by rw [abs_of_nonneg]; norm_num
  norm_num [to_Fraction, cfLoop, abs_lt, b0, a1, a2, a3]

/-- C2 counterexample: for the nonzero value `v = 1/4` and tolerance
`ε = 1/2 > 0` the converter short-circuits to `0/1`, and `|0/1 − 1/4|` is
not below `|1/4| · (1/2)` — the claimed relative bound fails as stated. -/
theorem C2_to_Fraction_approximation_counterexample :
    ((1/4 : ℚ) ≠ 0) ∧ ((0 : ℚ) < 1/2) ∧ to_Fraction (1/4) (1/2) 5 = .ok (0, 1) ∧
      ¬ (|((0 : Int) : ℚ) / ((1 : Int) : ℚ) - 1/4| < |(1/4 : ℚ)| * (1/2)) := by
  refine ⟨by norm_num, by norm_num, by norm_num [to_Fraction], ?_⟩
  rw [not_lt]
  have e1 : ((0 : Int) : ℚ) / ((1 : Int) : ℚ) - 1/4 = -(1/4) := by norm_num
  rw [e1, abs_neg, abs_of_nonneg (by norm_num : (0 : ℚ) ≤ 1/4)]
  norm_num
